import Mathlib

/-!
# Verification of the EMV TLV decoder and CVM policy evaluator

Shallow embedding of `scripts/emvutils.py`: the BER-TLV parser
(`parse_tlv`) and the CVM policy functions
(`is_cardholder_verification_supported`, `get_cvm_methods`,
`is_offline_pin_highest_priority`, `will_card_always_request_pin`).

Conventions of the embedding:
* Python `bytes` values are `List Nat` (each element a byte value).
* A raised Python exception (`ValueError` from `bytes.fromhex`,
  `IndexError` from an out-of-range `data[i]`) is `none`; a normal
  return is `some`.
* The decoder's integer cursor `i` is represented by the remaining
  suffix of the buffer: `data[i]` is the head of the suffix,
  `data[i:i+n]` is `take n`, and advancing the cursor is `drop`.
* A Python `dict` is an association list with unique keys: updating an
  existing key rewrites it in place, a new key is appended at the end,
  exactly as Python dict insertion order behaves.
-/

/-! ## Hex-string decoding (`bytes.fromhex` composed with `str.replace(" ", "")`) -/

/-- Value of one hex digit character, accepting `0-9`, `a-f`, `A-F`
exactly as Python's `bytes.fromhex` does; `none` on any other character. -/
def hexDigitVal (c : Char) : Option Nat :=
  let n := c.toNat
  if 48 ≤ n ∧ n ≤ 57 then some (n - 48)
  else if 97 ≤ n ∧ n ≤ 102 then some (n - 87)
  else if 65 ≤ n ∧ n ≤ 70 then some (n - 55)
  else none

/-- ASCII whitespace in the sense of CPython's `Py_ISSPACE`: space,
tab, newline, vertical tab, form feed, carriage return. -/
def isPySpace (c : Char) : Bool :=
  c.toNat == 32 || (9 ≤ c.toNat && c.toNat ≤ 13)

/-- `bytes.fromhex` (Python ≥ 3.7): ASCII whitespace is skipped between
byte pairs (and at the ends); each pair is two immediately adjacent hex
digits; anything else — a non-hex non-whitespace character, whitespace
inside a pair, or an odd trailing digit — raises `ValueError` (`none`). -/
def bytesFromHex : List Char → Option (List Nat)
  | [] => some []
  | c1 :: rest =>
    if isPySpace c1 then bytesFromHex rest
    else
      match rest with
      | [] => none
      | c2 :: rest2 =>
        match hexDigitVal c1, hexDigitVal c2, bytesFromHex rest2 with
        | some h, some l, some t => some ((h * 16 + l) :: t)
        | _, _, _ => none

/-- `hexstr_to_bytes(hexstr)`: strip spaces, then `bytes.fromhex`. -/
def hexstr_to_bytes (s : String) : Option (List Nat) :=
  bytesFromHex (s.data.filter (fun c => c ≠ ' '))

/-! ## CVM policy evaluator -/

/-- `is_cardholder_verification_supported(aip)`: `False` if `aip` is `None`
or empty, else the truth value of `aip[0] & 0x10`. -/
def is_cardholder_verification_supported : Option (List Nat) → Bool
  | none => false
  | some [] => false
  | some (b :: _) => b &&& 0x10 != 0

/-- Every even-indexed element of a list
(`[cvm_list[i] for i in range(0, len(cvm_list), 2)]`). -/
def everyOther : List Nat → List Nat
  | [] => []
  | [b] => [b]
  | b :: _ :: rest => b :: everyOther rest

/-- `get_cvm_methods(cvm_list)`: `[]` if the list is `None` or shorter
than 2 bytes, else the even-indexed bytes. -/
def get_cvm_methods : Option (List Nat) → List Nat
  | none => []
  | some l => if l.length < 2 then [] else everyOther l

/-- `is_offline_pin_highest_priority(cvm_list)`: truthiness of
`methods and methods[0] == 0x01`. -/
def is_offline_pin_highest_priority (cvm_list : Option (List Nat)) : Bool :=
  match get_cvm_methods cvm_list with
  | [] => false
  | m :: _ => m == 0x01

/-- A value supplied for tag `82` or `8E`: either a hex string or raw bytes
(the `Union[str, bytes]` of the source). -/
inductive TagVal where
  | hexS (s : String)
  | raw (b : List Nat)
deriving DecidableEq

/-- `card_tags.get(k)` on the tag dictionary. -/
def tagDictGet (m : List (String × TagVal)) (k : String) : Option TagVal :=
  (m.find? (fun p => p.1 == k)).map Prod.snd

/-- The `isinstance(x, str)` coercion step of `will_card_always_request_pin`:
a missing value stays missing, raw bytes pass through, a hex string is
decoded (failure of the decode aborts the call). -/
def coerceTagVal : Option TagVal → Option (Option (List Nat))
  | none => some none
  | some (TagVal.raw b) => some (some b)
  | some (TagVal.hexS s) =>
    match hexstr_to_bytes s with
    | none => none
    | some b => some (some b)

/-- `will_card_always_request_pin(card_tags)`: fetch tags `82` and `8E`,
coerce hex strings to bytes, and return the conjunction of the two checks. -/
def will_card_always_request_pin (card_tags : List (String × TagVal)) :
    Option Bool :=
  match coerceTagVal (tagDictGet card_tags "82") with
  | none => none
  | some aip =>
    match coerceTagVal (tagDictGet card_tags "8E") with
    | none => none
    | some cvm_list =>
      some (is_cardholder_verification_supported aip &&
        is_offline_pin_highest_priority cvm_list)

/-! ## TLV decoder (`parse_tlv`) -/

/-- `int.from_bytes(bs, 'big')`. -/
def intFromBytesBE (bs : List Nat) : Nat :=
  bs.foldl (fun acc b => acc * 256 + b) 0

/-- One uppercase hex digit character (`0-9`, `A-F`). -/
def hexDigitChar (d : Nat) : Char :=
  if d < 10 then Char.ofNat (48 + d) else Char.ofNat (55 + d)

/-- Accumulator-passing core of the uppercase hex rendering, structurally
recursive on a fuel argument (the fuel `n + 1` always suffices). -/
def toHexCore : Nat → Nat → List Char → List Char
  | 0, _, acc => acc
  | fuel + 1, n, acc =>
    if n < 16 then hexDigitChar n :: acc
    else toHexCore fuel (n / 16) (hexDigitChar (n % 16) :: acc)

/-- Minimal-length uppercase hex digits of `n` (at least one digit). -/
def toHexDigits (n : Nat) : List Char :=
  toHexCore (n + 1) n []

/-- Python `f"{n:0wX}"`: uppercase hex, left-padded with zeros to width `w`. -/
def formatHex (n w : Nat) : String :=
  String.mk (List.replicate (w - (toHexDigits n).length) '0' ++ toHexDigits n)

/-- The tag rendering of `parse_tlv`:
`f"{tag:02X}" if tag <= 0xFF else f"{tag:04X}"`. -/
def tagToHex (tag : Nat) : String :=
  if tag ≤ 0xFF then formatHex tag 2 else formatHex tag 4

/-- Tag parsing step of `parse_tlv` on the remaining buffer: reads one byte,
and when its low 5 bits are all set reads a second byte and combines the two
as `(tag << 8) | data[i]`; `none` is the `IndexError` raised when the second
tag byte is past the end of the buffer. -/
def readTag : List Nat → Option (Nat × List Nat)
  | [] => none
  | t :: rest =>
    if t &&& 0x1F = 0x1F then
      match rest with
      | [] => none
      | t2 :: rest2 => some ((t <<< 8) ||| t2, rest2)
    else some (t, rest)

/-- Length parsing step of `parse_tlv` on the remaining buffer: one byte,
and if its high bit is set, the low 7 bits count big-endian length bytes
(read with Python slicing, which silently truncates at the end of the
buffer); `none` is the `IndexError` on a missing first length byte. -/
def readLen : List Nat → Option (Nat × List Nat)
  | [] => none
  | l0 :: rest =>
    if l0 &&& 0x80 ≠ 0 then
      let numBytes := l0 &&& 0x7F
      some (intFromBytesBE (rest.take numBytes), rest.drop numBytes)
    else some (l0, rest)

/-- One iteration of the `parse_tlv` loop: tag, length, then the value
`data[i:i+length]` (Python slicing, silently short at the end of the
buffer). Returns the rendered tag, the value, and the remaining buffer. -/
def tlvStep (data : List Nat) : Option (String × List Nat × List Nat) :=
  match readTag data with
  | none => none
  | some (tag, r1) =>
    match readLen r1 with
    | none => none
    | some (len, r2) => some (tagToHex tag, r2.take len, r2.drop len)

/-- `tlvs[tag_hex] = value` on a Python dict modelled as an association
list: an existing key is updated in place, a new key is appended. -/
def dictInsert (m : List (String × List Nat)) (k : String) (v : List Nat) :
    List (String × List Nat) :=
  if m.any (fun p => p.1 == k) then
    m.map (fun p => if p.1 == k then (k, v) else p)
  else m ++ [(k, v)]

/-- `tlvs.get(k)` on the decoded dict. -/
def dictFind (m : List (String × List Nat)) (k : String) : Option (List Nat) :=
  (m.find? (fun p => p.1 == k)).map Prod.snd

/-- The `while i < len(data)` loop of `parse_tlv`: repeats `tlvStep`,
inserting each parsed field into the dict, until the remaining buffer is
empty; `none` propagates an `IndexError` from a step. -/
def parse_tlv_loop (data : List Nat) (tlvs : List (String × List Nat)) :
    Option (List (String × List Nat)) :=
  match data with
  | [] => some tlvs
  | t :: rest =>
    match hs : tlvStep (t :: rest) with
    | none => none
    | some (tagHex, value, rem) => parse_tlv_loop rem (dictInsert tlvs tagHex value)
termination_by data.length
decreasing_by
  have key : ∀ (d : List Nat) (h : String) (v rem : List Nat),
      tlvStep d = some (h, v, rem) → rem.length < d.length := by
    intro d h v rem hstep
    have hrtLen : ∀ (d1 : List Nat) (tag : Nat) (r : List Nat),
        readTag d1 = some (tag, r) → r.length < d1.length := by
      intro d1 tag r hq
      cases d1 with
      | nil => simp [readTag] at hq
      | cons t1 rest1 =>
        simp only [readTag] at hq
        split at hq
        · cases rest1 with
          | nil => simp at hq
          | cons t2 rest2 =>
            simp only [Option.some.injEq, Prod.mk.injEq] at hq
            obtain ⟨-, rfl⟩ := hq
            simp only [List.length_cons]
            omega
        · simp only [Option.some.injEq, Prod.mk.injEq] at hq
          obtain ⟨-, rfl⟩ := hq
          simp only [List.length_cons]
          omega
    have hrlLen : ∀ (d1 : List Nat) (len : Nat) (r : List Nat),
        readLen d1 = some (len, r) → r.length < d1.length := by
      intro d1 len r hq
      cases d1 with
      | nil => simp [readLen] at hq
      | cons l0 rest1 =>
        simp only [readLen] at hq
        split at hq
        · simp only [Option.some.injEq, Prod.mk.injEq] at hq
          obtain ⟨-, rfl⟩ := hq
          simp only [List.length_drop, List.length_cons]
          omega
        · simp only [Option.some.injEq, Prod.mk.injEq] at hq
          obtain ⟨-, rfl⟩ := hq
          simp only [List.length_cons]
          omega
    unfold tlvStep at hstep
    cases h1 : readTag d with
    | none =>
      simp only [h1] at hstep
      exact absurd hstep (by simp)
    | some p =>
      obtain ⟨tag, r1⟩ := p
      simp only [h1] at hstep
      cases h2 : readLen r1 with
      | none =>
        simp only [h2] at hstep
        exact absurd hstep (by simp)
      | some q =>
        obtain ⟨len, r2⟩ := q
        simp only [h2, Option.some.injEq, Prod.mk.injEq] at hstep
        obtain ⟨-, -, rfl⟩ := hstep
        have g1 := hrtLen d tag r1 h1
        have g2 := hrlLen r1 len r2 h2
        have g3 : (r2.drop len).length ≤ r2.length := by simp
        omega
  exact key _ _ _ _ hs

/-- `parse_tlv(hexstr)`: strip spaces, `bytes.fromhex`, then the TLV loop
starting from an empty dict. -/
def parse_tlv (hexstr : String) : Option (List (String × List Nat)) :=
  match bytesFromHex (hexstr.data.filter (fun c => c ≠ ' ')) with
  | none => none
  | some data => parse_tlv_loop data []

/-- The flat sequence of `(tag_hex, value)` fields met by the decode loop,
in stream order and without the dict's deduplication. -/
def tlvFields (data : List Nat) : Option (List (String × List Nat)) :=
  match data with
  | [] => some []
  | t :: rest =>
    match hs : tlvStep (t :: rest) with
    | none => none
    | some (tagHex, value, rem) =>
      match tlvFields rem with
      | none => none
      | some fs => some ((tagHex, value) :: fs)
termination_by data.length
decreasing_by
  have key : ∀ (d : List Nat) (h : String) (v rem : List Nat),
      tlvStep d = some (h, v, rem) → rem.length < d.length := by
    intro d h v rem hstep
    have hrtLen : ∀ (d1 : List Nat) (tag : Nat) (r : List Nat),
        readTag d1 = some (tag, r) → r.length < d1.length := by
      intro d1 tag r hq
      cases d1 with
      | nil => simp [readTag] at hq
      | cons t1 rest1 =>
        simp only [readTag] at hq
        split at hq
        · cases rest1 with
          | nil => simp at hq
          | cons t2 rest2 =>
            simp only [Option.some.injEq, Prod.mk.injEq] at hq
            obtain ⟨-, rfl⟩ := hq
            simp only [List.length_cons]
            omega
        · simp only [Option.some.injEq, Prod.mk.injEq] at hq
          obtain ⟨-, rfl⟩ := hq
          simp only [List.length_cons]
          omega
    have hrlLen : ∀ (d1 : List Nat) (len : Nat) (r : List Nat),
        readLen d1 = some (len, r) → r.length < d1.length := by
      intro d1 len r hq
      cases d1 with
      | nil => simp [readLen] at hq
      | cons l0 rest1 =>
        simp only [readLen] at hq
        split at hq
        · simp only [Option.some.injEq, Prod.mk.injEq] at hq
          obtain ⟨-, rfl⟩ := hq
          simp only [List.length_drop, List.length_cons]
          omega
        · simp only [Option.some.injEq, Prod.mk.injEq] at hq
          obtain ⟨-, rfl⟩ := hq
          simp only [List.length_cons]
          omega
    unfold tlvStep at hstep
    cases h1 : readTag d with
    | none =>
      simp only [h1] at hstep
      exact absurd hstep (by simp)
    | some p =>
      obtain ⟨tag, r1⟩ := p
      simp only [h1] at hstep
      cases h2 : readLen r1 with
      | none =>
        simp only [h2] at hstep
        exact absurd hstep (by simp)
      | some q =>
        obtain ⟨len, r2⟩ := q
        simp only [h2, Option.some.injEq, Prod.mk.injEq] at hstep
        obtain ⟨-, -, rfl⟩ := hstep
        have g1 := hrtLen d tag r1 h1
        have g2 := hrlLen r1 len r2 h2
        have g3 : (r2.drop len).length ≤ r2.length := by simp
        omega
  exact key _ _ _ _ hs

/-- `tlvFields` applied to a hex string the way `parse_tlv` is. -/
def tlv_field_seq (hexstr : String) : Option (List (String × List Nat)) :=
  match bytesFromHex (hexstr.data.filter (fun c => c ≠ ' ')) with
  | none => none
  | some data => tlvFields data

/-- The value of the last field with key `k` in a field sequence. -/
def lastValue (fs : List (String × List Nat)) (k : String) : Option (List Nat) :=
  fs.foldl (fun acc p => if p.1 == k then some p.2 else acc) none

/-! ## Re-encoder: the inverse of the decode algorithm (for the round-trip
law), and the shape predicate on decoded keys -/

/-- Minimal big-endian byte expansion of `n` (empty for `n = 0`),
accumulator-passing and structurally recursive on a fuel argument
(the fuel `n + 1` always suffices). -/
def natToBytesCore : Nat → Nat → List Nat → List Nat
  | 0, _, acc => acc
  | fuel + 1, n, acc =>
    if n = 0 then acc else natToBytesCore fuel (n / 256) (n % 256 :: acc)

/-- Minimal big-endian bytes of `n`. -/
def natToBytesBE (n : Nat) : List Nat :=
  natToBytesCore (n + 1) n []

/-- Tag number to tag bytes: one byte for tags up to `0xFF`, two big-endian
bytes otherwise. -/
def encodeTag (t : Nat) : List Nat :=
  if t ≤ 0xFF then [t] else [t >>> 8, t &&& 0xFF]

/-- Length to BER-TLV length bytes: short form below `0x80`, otherwise the
long form `0x80 + count` followed by `count` big-endian length bytes. -/
def encodeLen (n : Nat) : List Nat :=
  if n ≤ 0x7F then [n] else (0x80 + (natToBytesBE n).length) :: natToBytesBE n

/-- One encoded TLV field: tag bytes, length bytes, value bytes. -/
def encodeField (t : Nat) (v : List Nat) : List Nat :=
  encodeTag t ++ encodeLen v.length ++ v

/-- A whole map of fields, encoded in order. -/
def encodeTlvMap : List (Nat × List Nat) → List Nat
  | [] => []
  | p :: fs => encodeField p.1 p.2 ++ encodeTlvMap fs

/-- A tag number expressible in the decoder's one- or two-byte tag format:
either one byte whose low 5 bits are not all set, or a two-byte tag whose
first byte carries the multi-byte marker. -/
def validTag (t : Nat) : Prop :=
  (t ≤ 0xFF ∧ t &&& 0x1F ≠ 0x1F) ∨
    (0xFF < t ∧ t < 0x10000 ∧ (t >>> 8) &&& 0x1F = 0x1F)

instance validTag_decidable (t : Nat) : Decidable (validTag t) := by
  unfold validTag
  infer_instance

/-- An uppercase hex digit character (`0-9` or `A-F`). -/
def isUpperHexDigit (c : Char) : Bool :=
  (48 ≤ c.toNat && c.toNat ≤ 57) || (65 ≤ c.toNat && c.toNat ≤ 70)

/-- Numeric value of a string of hex digits (most significant first). -/
def hexVal (l : List Char) : Nat :=
  l.foldl (fun a c => a * 16 + ((hexDigitVal c).getD 0)) 0

/-- The shape every key of a decoded TLV map has: uppercase hex digits
only, and either exactly 2 digits denoting a value at most `0xFF`, or
exactly 4 digits denoting a value at least `0x1F00`. -/
def goodKey (s : String) : Bool :=
  s.data.all isUpperHexDigit &&
    ((s.data.length == 2 && decide (hexVal s.data ≤ 0xFF)) ||
      (s.data.length == 4 && decide (0x1F00 ≤ hexVal s.data)))

/-! ## Basic length facts about the decoder steps -/

theorem readTag_some_length {d : List Nat} {tag : Nat} {r : List Nat}
    (h : readTag d = some (tag, r)) : r.length < d.length := by
  match d with
  | [] => simp [readTag] at h
  | t :: rest =>
    simp only [readTag] at h
    split at h
    · match rest with
      | [] => simp at h
      | t2 :: rest2 =>
        simp only [Option.some.injEq, Prod.mk.injEq] at h
        obtain ⟨-, rfl⟩ := h
        simp
        omega
    · simp only [Option.some.injEq, Prod.mk.injEq] at h
      obtain ⟨-, rfl⟩ := h
      simp

theorem readLen_some_length {d : List Nat} {len : Nat} {r : List Nat}
    (h : readLen d = some (len, r)) : r.length < d.length := by
  match d with
  | [] => simp [readLen] at h
  | l0 :: rest =>
    simp only [readLen] at h
    split at h
    · simp only [Option.some.injEq, Prod.mk.injEq] at h
      obtain ⟨-, rfl⟩ := h
      simp
      omega
    · simp only [Option.some.injEq, Prod.mk.injEq] at h
      obtain ⟨-, rfl⟩ := h
      simp

theorem tlvStep_some_length {d : List Nat} {h : String} {v rem : List Nat}
    (hs : tlvStep d = some (h, v, rem)) : rem.length < d.length := by
  unfold tlvStep at hs
  cases h1 : readTag d with
  | none => simp only [h1] at hs; exact absurd hs (by simp)
  | some p =>
    obtain ⟨tag, r1⟩ := p
    simp only [h1] at hs
    cases h2 : readLen r1 with
    | none => simp only [h2] at hs; exact absurd hs (by simp)
    | some q =>
      obtain ⟨len, r2⟩ := q
      simp only [h2, Option.some.injEq, Prod.mk.injEq] at hs
      obtain ⟨-, -, rfl⟩ := hs
      have g1 := readTag_some_length h1
      have g2 := readLen_some_length h2
      have g3 : (r2.drop len).length ≤ r2.length := by simp
      omega

/-! ## Lemmas about the hex decoder -/

theorem isPySpace_iff (c : Char) :
    isPySpace c = true ↔ (c.toNat = 32 ∨ (9 ≤ c.toNat ∧ c.toNat ≤ 13)) := by
  simp [isPySpace]

theorem hexDigitVal_not_space {c : Char} {d : Nat} (h : hexDigitVal c = some d) :
    isPySpace c = false := by
  simp only [hexDigitVal] at h
  cases hb : isPySpace c with
  | false => rfl
  | true =>
    rw [isPySpace_iff] at hb
    split_ifs at h <;> omega

theorem bytesFromHex_nil : bytesFromHex [] = some [] := rfl

theorem bytesFromHex_cons_space {c1 : Char} (rest : List Char)
    (h : isPySpace c1 = true) : bytesFromHex (c1 :: rest) = bytesFromHex rest := by
  conv_lhs => rw [bytesFromHex.eq_def]
  simp only [h, if_true]

theorem bytesFromHex_single {c1 : Char} (h : isPySpace c1 = false) :
    bytesFromHex [c1] = none := by
  conv_lhs => rw [bytesFromHex.eq_def]
  simp only [h, Bool.false_eq_true, if_false]

theorem bytesFromHex_pair_ok {c1 c2 : Char} {d1 d2 : Nat} (rest2 : List Char)
    (h : isPySpace c1 = false) (h1 : hexDigitVal c1 = some d1)
    (h2 : hexDigitVal c2 = some d2) :
    bytesFromHex (c1 :: c2 :: rest2) =
      (bytesFromHex rest2).map (fun t => (d1 * 16 + d2) :: t) := by
  conv_lhs => rw [bytesFromHex.eq_def]
  simp only [h, Bool.false_eq_true, if_false, h1, h2]
  cases hb : bytesFromHex rest2 <;> simp

theorem bytesFromHex_pair_bad1 {c1 : Char} (c2 : Char) (rest2 : List Char)
    (h : isPySpace c1 = false) (h1 : hexDigitVal c1 = none) :
    bytesFromHex (c1 :: c2 :: rest2) = none := by
  conv_lhs => rw [bytesFromHex.eq_def]
  simp only [h, Bool.false_eq_true, if_false, h1]

theorem bytesFromHex_pair_bad2 (c1 : Char) {c2 : Char} (rest2 : List Char)
    (h : isPySpace c1 = false) (h2 : hexDigitVal c2 = none) :
    bytesFromHex (c1 :: c2 :: rest2) = none := by
  conv_lhs => rw [bytesFromHex.eq_def]
  simp only [h, Bool.false_eq_true, if_false, h2]
  cases hb : hexDigitVal c1 <;> simp

theorem bytesFromHex_even_aux :
    ∀ (fuel : Nat) (l : List Char) (bs : List Nat), l.length ≤ fuel →
      bytesFromHex l = some bs →
      (l.filter (fun c => !isPySpace c)).length % 2 = 0 := by
  intro fuel
  induction fuel with
  | zero =>
    intro l bs hl h
    have : l = [] := by cases l <;> simp_all
    subst this
    simp
  | succ fuel ih =>
    intro l bs hl h
    cases l with
    | nil => simp
    | cons c1 rest =>
      cases hws : isPySpace c1 with
      | true =>
        rw [bytesFromHex_cons_space rest hws] at h
        simp only [List.filter_cons, hws, Bool.not_true, Bool.false_eq_true,
          if_false]
        exact ih rest bs (by simp at hl; omega) h
      | false =>
        cases rest with
        | nil =>
          rw [bytesFromHex_single hws] at h
          exact absurd h (by simp)
        | cons c2 rest2 =>
          cases h1 : hexDigitVal c1 with
          | none =>
            rw [bytesFromHex_pair_bad1 c2 rest2 hws h1] at h
            exact absurd h (by simp)
          | some d1 =>
            cases h2 : hexDigitVal c2 with
            | none =>
              rw [bytesFromHex_pair_bad2 c1 rest2 hws h2] at h
              exact absurd h (by simp)
            | some d2 =>
              rw [bytesFromHex_pair_ok rest2 hws h1 h2] at h
              cases h3 : bytesFromHex rest2 with
              | none => rw [h3] at h; exact absurd h (by simp)
              | some t =>
                have hws2 : isPySpace c2 = false := hexDigitVal_not_space h2
                simp only [List.filter_cons, hws, hws2, Bool.not_false, if_true,
                  List.length_cons]
                have := ih rest2 t (by simp at hl; omega) h3
                omega

theorem bytesFromHex_chars_aux :
    ∀ (fuel : Nat) (l : List Char) (bs : List Nat), l.length ≤ fuel →
      bytesFromHex l = some bs →
      ∀ c ∈ l, isPySpace c = true ∨ hexDigitVal c ≠ none := by
  intro fuel
  induction fuel with
  | zero =>
    intro l bs hl h c hc
    have : l = [] := by cases l <;> simp_all
    subst this
    simp at hc
  | succ fuel ih =>
    intro l bs hl h c hc
    cases l with
    | nil => simp at hc
    | cons c1 rest =>
      cases hws : isPySpace c1 with
      | true =>
        rw [bytesFromHex_cons_space rest hws] at h
        rcases hc with _ | ⟨_, hc⟩
        · exact Or.inl hws
        · exact ih rest bs (by simp at hl; omega) h c hc
      | false =>
        cases rest with
        | nil =>
          rw [bytesFromHex_single hws] at h
          exact absurd h (by simp)
        | cons c2 rest2 =>
          cases h1 : hexDigitVal c1 with
          | none =>
            rw [bytesFromHex_pair_bad1 c2 rest2 hws h1] at h
            exact absurd h (by simp)
          | some d1 =>
            cases h2 : hexDigitVal c2 with
            | none =>
              rw [bytesFromHex_pair_bad2 c1 rest2 hws h2] at h
              exact absurd h (by simp)
            | some d2 =>
              rw [bytesFromHex_pair_ok rest2 hws h1 h2] at h
              cases h3 : bytesFromHex rest2 with
              | none => rw [h3] at h; exact absurd h (by simp)
              | some t =>
                rcases hc with _ | ⟨_, hc⟩
                · exact Or.inr (by simp [h1])
                · rcases hc with _ | ⟨_, hc⟩
                  · exact Or.inr (by simp [h2])
                  · exact ih rest2 t (by simp at hl; omega) h3 c hc

theorem bytesFromHex_some_even {l : List Char} {bs : List Nat}
    (h : bytesFromHex l = some bs) :
    (l.filter (fun c => !isPySpace c)).length % 2 = 0 :=
  bytesFromHex_even_aux l.length l bs (Nat.le_refl _) h

theorem bytesFromHex_some_chars {l : List Char} {bs : List Nat}
    (h : bytesFromHex l = some bs) :
    ∀ c ∈ l, isPySpace c = true ∨ hexDigitVal c ≠ none :=
  bytesFromHex_chars_aux l.length l bs (Nat.le_refl _) h

theorem filter_space_filter_ws (l : List Char) :
    (l.filter (fun c => c ≠ ' ')).filter (fun c => !isPySpace c) =
      l.filter (fun c => !isPySpace c) := by
  induction l with
  | nil => rfl
  | cons c l ih =>
    by_cases hws : isPySpace c = true
    · by_cases hsp : c = ' '
      · subst hsp
        simpa [List.filter_cons] using ih
      · simp only [List.filter_cons, hws, Bool.not_true, if_false,
          Bool.false_eq_true]
        rw [if_pos (by simpa using hsp)]
        simp only [List.filter_cons, hws, Bool.not_true, if_false,
          Bool.false_eq_true]
        exact ih
    · have hsp : c ≠ ' ' := by
        intro he
        subst he
        exact hws (by decide)
      simp only [List.filter_cons]
      rw [if_pos (by simpa using hsp)]
      simp only [List.filter_cons, Bool.not_eq_true', hws, Bool.not_false, if_true]
      rw [ih]

/-! ## Lemmas about `everyOther` -/

theorem everyOther_getElem?_aux :
    ∀ (fuel : Nat) (l : List Nat), l.length ≤ fuel →
      ∀ i : Nat, (everyOther l)[i]? = l[2 * i]? := by
  intro fuel
  induction fuel with
  | zero =>
    intro l hl i
    have : l = [] := by cases l <;> simp_all
    subst this
    simp [everyOther]
  | succ fuel ih =>
    intro l hl i
    match l with
    | [] => simp [everyOther]
    | [b] =>
      match i with
      | 0 => simp [everyOther]
      | i + 1 =>
        have h2 : 2 * (i + 1) = (2 * i + 1) + 1 := by omega
        simp [everyOther, h2]
    | a :: b :: rest =>
      match i with
      | 0 => simp [everyOther]
      | i + 1 =>
        have hlen : rest.length ≤ fuel := by simp at hl; omega
        have h2 : 2 * (i + 1) = (2 * i + 1) + 1 := by omega
        simp only [everyOther, h2, List.getElem?_cons_succ]
        exact ih rest hlen i

theorem everyOther_getElem? (l : List Nat) (i : Nat) :
    (everyOther l)[i]? = l[2 * i]? :=
  everyOther_getElem?_aux l.length l (Nat.le_refl _) i

/-! ## Claim theorems: the CVM policy evaluator -/

/-- Claim C4, counterexample: the claim asserts
`is_cardholder_verification_supported` is `False` on `bytes([0x30, 0x00])`,
but `0x30 & 0x10 = 0x10 ≠ 0`, so the code returns `True`. -/
theorem aip_0x30_counterexample :
    is_cardholder_verification_supported (some [0x30, 0x00]) = true := by decide

/-- Claim C4 (amended): `is_cardholder_verification_supported` is `False`
when the AIP is missing or empty, and otherwise `True` iff bit `0x10` of
the first byte is set; in particular it is `True` on `[0x38, 0x00]` and
also `True` on `[0x30, 0x00]` (whose first byte has bit `0x10` set). -/
theorem aip_check_characterization :
    is_cardholder_verification_supported none = false ∧
    is_cardholder_verification_supported (some []) = false ∧
    (∀ (b : Nat) (rest : List Nat),
      is_cardholder_verification_supported (some (b :: rest)) = true ↔
        b &&& 0x10 ≠ 0) ∧
    is_cardholder_verification_supported (some [0x38, 0x00]) = true ∧
    is_cardholder_verification_supported (some [0x30, 0x00]) = true := by
  refine ⟨rfl, rfl, ?_, by decide, by decide⟩
  intro b rest
  simp [is_cardholder_verification_supported]

/-- Claim C5: `is_offline_pin_highest_priority` is true iff the extracted
methods sequence is non-empty with first element `0x01`; on any list with
at least one full 2-byte entry the verdict is decided by the first CVM code
alone, never by a condition code. -/
theorem offline_pin_priority_characterization :
    (∀ cvm : Option (List Nat),
      is_offline_pin_highest_priority cvm = true ↔
        (get_cvm_methods cvm).head? = some 0x01) ∧
    (∀ (m c : Nat) (rest : List Nat),
      is_offline_pin_highest_priority (some (m :: c :: rest)) = (m == 0x01)) := by
  constructor
  · intro cvm
    unfold is_offline_pin_highest_priority
    cases h : get_cvm_methods cvm with
    | nil => simp
    | cons m tail => simp
  · intro m c rest
    simp only [is_offline_pin_highest_priority, get_cvm_methods]
    have h2 : ¬((m :: c :: rest).length < 2) := by simp
    rw [if_neg h2]
    simp [everyOther]

/-- Claim C6: `get_cvm_methods` returns `[]` on a missing or short list and
otherwise the even-indexed bytes; on `[0x01, 0x00, 0x02, 0x00]` it returns
`[0x01, 0x02]`. -/
theorem get_cvm_methods_characterization :
    get_cvm_methods none = [] ∧
    (∀ l : List Nat, l.length < 2 → get_cvm_methods (some l) = []) ∧
    (∀ (l : List Nat) (i : Nat), 2 ≤ l.length →
      (get_cvm_methods (some l))[i]? = l[2 * i]?) ∧
    get_cvm_methods (some [0x01, 0x00, 0x02, 0x00]) = [0x01, 0x02] := by
  refine ⟨rfl, ?_, ?_, by decide⟩
  · intro l hl
    simp [get_cvm_methods, hl]
  · intro l i hl
    have h : ¬(l.length < 2) := by omega
    simp only [get_cvm_methods, h, if_false]
    exact everyOther_getElem? l i

theorem get_cvm_methods_characterization_witness :
    (get_cvm_methods (some [0x01, 0x00, 0x02, 0x00]))[1]? =
      [0x01, 0x00, 0x02, 0x00][2 * 1]? :=
  get_cvm_methods_characterization.2.2.1 [0x01, 0x00, 0x02, 0x00] 1 (by decide)

/-- Claim C2: `will_card_always_request_pin` is exactly the conjunction of
the AIP check on the tag-82 value and the CVM-priority check on the tag-8E
value after hex-string coercion, and on the spec's two end-to-end examples
it returns `True` and `False` respectively. -/
theorem will_request_pin_conjunction :
    (∀ (m : List (String × TagVal)) (tv82 tv8E : TagVal) (b82 b8E : List Nat),
      tagDictGet m "82" = some tv82 → tagDictGet m "8E" = some tv8E →
      coerceTagVal (some tv82) = some (some b82) →
      coerceTagVal (some tv8E) = some (some b8E) →
      will_card_always_request_pin m =
        some (is_cardholder_verification_supported (some b82) &&
          is_offline_pin_highest_priority (some b8E))) ∧
    will_card_always_request_pin
      [("82", TagVal.hexS "3800"), ("8E", TagVal.hexS "01000200")] = some true ∧
    will_card_always_request_pin
      [("82", TagVal.hexS "3000"), ("8E", TagVal.hexS "02000100")] = some false := by
  refine ⟨?_, by decide, by decide⟩
  intro m tv82 tv8E b82 b8E h82 h8E hc82 hc8E
  unfold will_card_always_request_pin
  rw [h82, h8E, hc82, hc8E]

theorem will_request_pin_conjunction_witness :
    will_card_always_request_pin
      [("82", TagVal.raw [0x38, 0x00]), ("8E", TagVal.raw [0x01, 0x00, 0x02, 0x00])] =
      some (is_cardholder_verification_supported (some [0x38, 0x00]) &&
        is_offline_pin_highest_priority (some [0x01, 0x00, 0x02, 0x00])) :=
  will_request_pin_conjunction.1
    [("82", TagVal.raw [0x38, 0x00]), ("8E", TagVal.raw [0x01, 0x00, 0x02, 0x00])]
    (TagVal.raw [0x38, 0x00]) (TagVal.raw [0x01, 0x00, 0x02, 0x00])
    [0x38, 0x00] [0x01, 0x00, 0x02, 0x00]
    (by decide) (by decide) (by decide) (by decide)

/-- Claim C9, counterexample: the string `"12\t34"` contains a non-hex
character (the tab) and has odd length 5, yet the conversion does not
fail: `bytes.fromhex` skips ASCII whitespace between byte pairs. -/
theorem whitespace_hex_accepted :
    hexstr_to_bytes "12\t34" = some [0x12, 0x34] := by decide

/-- Claim C9 (amended): a supplied hex string containing a character that
is neither a hex digit nor ASCII whitespace, or whose count of
non-whitespace characters is odd, makes `hexstr_to_bytes` fail with an
explicit error (Python `ValueError`, the spec's `InvalidHexInput`), never
silently truncating or falling back to empty bytes — in particular `"12G"`
and `"123"` fail — and such a failure for tag `82` or `8E` aborts
`will_card_always_request_pin`. ASCII whitespace between byte pairs is
skipped rather than rejected. -/
theorem invalid_hex_rejected :
    (∀ s : String,
      (s.data.filter (fun c => !isPySpace c)).length % 2 = 1 ∨
        (∃ c ∈ s.data, isPySpace c = false ∧ hexDigitVal c = none) →
      hexstr_to_bytes s = none) ∧
    hexstr_to_bytes "12G" = none ∧
    hexstr_to_bytes "123" = none ∧
    (∀ (m : List (String × TagVal)) (s : String),
      tagDictGet m "82" = some (TagVal.hexS s) → hexstr_to_bytes s = none →
      will_card_always_request_pin m = none) ∧
    (∀ (m : List (String × TagVal)) (s : String),
      tagDictGet m "8E" = some (TagVal.hexS s) → hexstr_to_bytes s = none →
      will_card_always_request_pin m = none) := by
  refine ⟨?_, by decide, by decide, ?_, ?_⟩
  · intro s h
    unfold hexstr_to_bytes
    cases hb : bytesFromHex (s.data.filter (fun c => c ≠ ' ')) with
    | none => rfl
    | some bs =>
      exfalso
      rcases h with h | ⟨c, hc, hws, hv⟩
      · have heven := bytesFromHex_some_even hb
        rw [filter_space_filter_ws] at heven
        omega
      · have hcc : c ∈ s.data.filter (fun c => c ≠ ' ') := by
          refine List.mem_filter.mpr ⟨hc, ?_⟩
          simp only [decide_eq_true_eq]
          intro he
          subst he
          exact absurd hws (by decide)
        rcases bytesFromHex_some_chars hb c hcc with hsp | hhex
        · rw [hws] at hsp
          simp at hsp
        · exact hhex hv
  · intro m s h hn
    unfold will_card_always_request_pin
    simp [h, coerceTagVal, hn]
  · intro m s h hn
    unfold will_card_always_request_pin
    cases hc : coerceTagVal (tagDictGet m "82") with
    | none => rfl
    | some a => simp [h, coerceTagVal, hn]

theorem invalid_hex_rejected_witness :
    will_card_always_request_pin [("82", TagVal.hexS "12G")] = none :=
  invalid_hex_rejected.2.2.2.1 [("82", TagVal.hexS "12G")] "12G"
    (by decide) (by decide)

/-! ## One-step rewriting lemmas for the decode loop -/

theorem parse_tlv_loop_nil (m : List (String × List Nat)) :
    parse_tlv_loop [] m = some m := by
  unfold parse_tlv_loop
  rfl

theorem parse_tlv_loop_cons_some {a : Nat} {l : List Nat} {h : String}
    {v rem : List Nat} (m : List (String × List Nat))
    (hs : tlvStep (a :: l) = some (h, v, rem)) :
    parse_tlv_loop (a :: l) m = parse_tlv_loop rem (dictInsert m h v) := by
  unfold parse_tlv_loop
  split
  · next heq => rw [hs] at heq; exact absurd heq (by simp)
  · next h2 v2 rem2 heq =>
    rw [hs] at heq
    simp only [Option.some.injEq, Prod.mk.injEq] at heq
    obtain ⟨rfl, rfl, rfl⟩ := heq
    conv_lhs => rw [parse_tlv_loop.eq_def]

theorem parse_tlv_loop_cons_none {a : Nat} {l : List Nat}
    (m : List (String × List Nat)) (hs : tlvStep (a :: l) = none) :
    parse_tlv_loop (a :: l) m = none := by
  unfold parse_tlv_loop
  split
  · rfl
  · next h2 v2 rem2 heq => rw [hs] at heq; exact absurd heq (by simp)

theorem parse_tlv_eq {s : String} {data : List Nat}
    (hb : bytesFromHex (s.data.filter (fun c => c ≠ ' ')) = some data) :
    parse_tlv s = parse_tlv_loop data [] := by
  unfold parse_tlv
  rw [hb]

theorem tlvFields_nil : tlvFields [] = some [] := by
  unfold tlvFields
  rfl

theorem tlvFields_cons_some {a : Nat} {l : List Nat} {h : String}
    {v rem : List Nat} {fs : List (String × List Nat)}
    (hs : tlvStep (a :: l) = some (h, v, rem)) (hf : tlvFields rem = some fs) :
    tlvFields (a :: l) = some ((h, v) :: fs) := by
  unfold tlvFields
  split
  · next heq => rw [hs] at heq; exact absurd heq (by simp)
  · next h2 v2 rem2 heq =>
    rw [hs] at heq
    simp only [Option.some.injEq, Prod.mk.injEq] at heq
    obtain ⟨rfl, rfl, rfl⟩ := heq
    rw [hf]

theorem tlvFields_cons_fail {a : Nat} {l : List Nat} {h : String}
    {v rem : List Nat} (hs : tlvStep (a :: l) = some (h, v, rem))
    (hf : tlvFields rem = none) : tlvFields (a :: l) = none := by
  unfold tlvFields
  split
  · rfl
  · next h2 v2 rem2 heq =>
    rw [hs] at heq
    simp only [Option.some.injEq, Prod.mk.injEq] at heq
    obtain ⟨rfl, rfl, rfl⟩ := heq
    rw [hf]

theorem tlvFields_cons_none {a : Nat} {l : List Nat}
    (hs : tlvStep (a :: l) = none) : tlvFields (a :: l) = none := by
  unfold tlvFields
  split
  · rfl
  · next h2 v2 rem2 heq => rw [hs] at heq; exact absurd heq (by simp)

theorem tlv_field_seq_eq {s : String} {data : List Nat}
    (hb : bytesFromHex (s.data.filter (fun c => c ≠ ' ')) = some data) :
    tlv_field_seq s = tlvFields data := by
  unfold tlv_field_seq
  rw [hb]

/-! ## Claim theorems: truncation behaviour of the decoder -/

/-- Claim C1, counterexample: on the spec's own example shape (a tag byte,
then a length byte claiming 5 value bytes while only 2 remain) `parse_tlv`
does not fail at all: it silently returns the 2 remaining bytes as the
value, because Python slicing truncates at the end of the buffer. -/
theorem truncated_value_silently_returned :
    parse_tlv "82050102" = some [("82", [0x01, 0x02])] := by
  rw [@parse_tlv_eq "82050102" [0x82, 0x05, 0x01, 0x02] (by decide)]
  rw [parse_tlv_loop_cons_some []
    (show tlvStep [0x82, 0x05, 0x01, 0x02] = some ("82", [0x01, 0x02], []) by decide)]
  rw [parse_tlv_loop_nil]
  decide

/-- Claim C1 (amended): the decoder fails (with an uncaught index error,
no partial map) only when the cursor would read past the end of the buffer
while fetching a tag's second byte or the initial length byte; when the
declared value length exceeds the remaining bytes it does not fail but
silently returns the short value. -/
theorem truncation_behavior :
    (∀ (t : Nat) (m : List (String × List Nat)), parse_tlv_loop [t] m = none) ∧
    (∀ (t1 t2 : Nat) (m : List (String × List Nat)), t1 &&& 0x1F = 0x1F →
      parse_tlv_loop [t1, t2] m = none) ∧
    (∀ (t l : Nat) (vs : List Nat) (m : List (String × List Nat)),
      t &&& 0x1F ≠ 0x1F → l &&& 0x80 = 0 → vs.length < l →
      parse_tlv_loop (t :: l :: vs) m = some (dictInsert m (tagToHex t) vs)) := by
  refine ⟨?_, ?_, ?_⟩
  · intro t m
    have hstep : tlvStep [t] = none := by
      by_cases h : t &&& 0x1F = 0x1F
      · have hrt : readTag [t] = none := by simp [readTag, h]
        simp [tlvStep, hrt]
      · have hrt : readTag [t] = some (t, []) := by simp [readTag, h]
        simp [tlvStep, hrt, readLen]
    exact parse_tlv_loop_cons_none m hstep
  · intro t1 t2 m h
    have hstep : tlvStep [t1, t2] = none := by
      have hrt : readTag [t1, t2] = some ((t1 <<< 8) ||| t2, []) := by
        simp [readTag, h]
      simp [tlvStep, hrt, readLen]
    exact parse_tlv_loop_cons_none m hstep
  · intro t l vs m h1 h2 h3
    have hstep : tlvStep (t :: l :: vs) = some (tagToHex t, vs, []) := by
      have hrt : readTag (t :: l :: vs) = some (t, l :: vs) := by
        simp [readTag, h1]
      have hrl : readLen (l :: vs) = some (l, vs) := by
        simp only [readLen]
        rw [if_neg (by simpa using h2)]
      simp only [tlvStep, hrt, hrl]
      rw [List.take_of_length_le (Nat.le_of_lt h3),
        List.drop_eq_nil_of_le (Nat.le_of_lt h3)]
    rw [parse_tlv_loop_cons_some m hstep, parse_tlv_loop_nil]

theorem truncation_behavior_witness :
    0x82 &&& 0x1F ≠ 0x1F ∧ 0x05 &&& 0x80 = 0 ∧
    parse_tlv_loop [0x82, 0x05, 0x01, 0x02] [] = some [("82", [0x01, 0x02])] := by
  refine ⟨by decide, by decide, ?_⟩
  rw [truncation_behavior.2.2 0x82 0x05 [0x01, 0x02] []
    (by decide) (by decide) (by decide)]
  decide

/-! ## Dict lemmas: the decoded map as a Python dict -/

theorem dictInsert_of_mem {m : List (String × List Nat)} {k : String}
    (v : List Nat) (h : m.any (fun p => p.1 == k) = true) :
    dictInsert m k v = m.map (fun p => if p.1 == k then (k, v) else p) := by
  simp only [dictInsert, h, if_true]

theorem dictInsert_of_not_mem {m : List (String × List Nat)} {k : String}
    (v : List Nat) (h : m.any (fun p => p.1 == k) = false) :
    dictInsert m k v = m ++ [(k, v)] := by
  simp only [dictInsert, h]
  rfl

theorem dictFind_nil (k : String) : dictFind [] k = none := rfl

theorem dictFind_cons_self {p : String × List Nat} {m : List (String × List Nat)}
    {k : String} (h : p.1 = k) : dictFind (p :: m) k = some p.2 := by
  unfold dictFind
  rw [List.find?_cons_of_pos]
  · rfl
  · simpa using h

theorem dictFind_cons_ne {p : String × List Nat} {m : List (String × List Nat)}
    {k : String} (h : p.1 ≠ k) : dictFind (p :: m) k = dictFind m k := by
  unfold dictFind
  rw [List.find?_cons_of_neg]
  simpa using h

theorem dictFind_map_repl (m : List (String × List Nat)) {k k2 : String}
    (v : List Nat) (hne : k2 ≠ k) :
    dictFind (m.map (fun p => if p.1 == k2 then (k2, v) else p)) k = dictFind m k := by
  induction m with
  | nil => rfl
  | cons q m ih =>
    simp only [List.map_cons]
    by_cases hq2 : q.1 = k2
    · have hb : (q.1 == k2) = true := by simpa using hq2
      rw [hb]
      simp only [if_true]
      rw [dictFind_cons_ne hne, dictFind_cons_ne (by rw [hq2]; exact hne)]
      exact ih
    · have hb : (q.1 == k2) = false := by simpa using hq2
      rw [hb]
      simp only [if_false, Bool.false_eq_true]
      by_cases hq : q.1 = k
      · rw [dictFind_cons_self hq, dictFind_cons_self hq]
      · rw [dictFind_cons_ne hq, dictFind_cons_ne hq]
        exact ih

theorem dictFind_map_repl_self (m : List (String × List Nat)) {k : String}
    (v : List Nat) (ha : m.any (fun p => p.1 == k) = true) :
    dictFind (m.map (fun p => if p.1 == k then (k, v) else p)) k = some v := by
  induction m with
  | nil => simp at ha
  | cons q m ih =>
    simp only [List.map_cons]
    by_cases hq : q.1 = k
    · have hb : (q.1 == k) = true := by simpa using hq
      rw [hb]
      simp only [if_true]
      exact dictFind_cons_self rfl
    · have hb : (q.1 == k) = false := by simpa using hq
      rw [hb]
      simp only [if_false, Bool.false_eq_true]
      rw [dictFind_cons_ne hq]
      refine ih ?_
      simpa [List.any_cons, hb] using ha

theorem dictFind_append_single (m : List (String × List Nat)) {k k2 : String}
    (v : List Nat) (hne : k2 ≠ k) :
    dictFind (m ++ [(k2, v)]) k = dictFind m k := by
  induction m with
  | nil =>
    simp only [List.nil_append]
    rw [dictFind_cons_ne hne]
  | cons q m ih =>
    simp only [List.cons_append]
    by_cases hq : q.1 = k
    · rw [dictFind_cons_self hq, dictFind_cons_self hq]
    · rw [dictFind_cons_ne hq, dictFind_cons_ne hq]
      exact ih

theorem dictFind_append_single_self (m : List (String × List Nat)) {k : String}
    (v : List Nat) (ha : m.any (fun p => p.1 == k) = false) :
    dictFind (m ++ [(k, v)]) k = some v := by
  induction m with
  | nil => exact dictFind_cons_self rfl
  | cons q m ih =>
    simp only [List.any_cons, Bool.or_eq_false_iff] at ha
    obtain ⟨hq, ha⟩ := ha
    simp only [List.cons_append]
    rw [dictFind_cons_ne (by simpa using hq)]
    exact ih ha

theorem dictFind_dictInsert_self (m : List (String × List Nat)) (k : String)
    (v : List Nat) : dictFind (dictInsert m k v) k = some v := by
  cases ha : m.any (fun p => p.1 == k) with
  | true =>
    rw [dictInsert_of_mem v ha]
    exact dictFind_map_repl_self m v ha
  | false =>
    rw [dictInsert_of_not_mem v ha]
    exact dictFind_append_single_self m v ha

theorem dictFind_dictInsert_ne (m : List (String × List Nat)) {k k2 : String}
    (v : List Nat) (hne : k2 ≠ k) :
    dictFind (dictInsert m k2 v) k = dictFind m k := by
  cases ha : m.any (fun p => p.1 == k2) with
  | true =>
    rw [dictInsert_of_mem v ha]
    exact dictFind_map_repl m v hne
  | false =>
    rw [dictInsert_of_not_mem v ha]
    exact dictFind_append_single m v hne

/-! ## The decode loop as a fold over the field sequence -/

theorem foldl_step_or (k : String) :
    ∀ (fs : List (String × List Nat)) (acc : Option (List Nat)),
      fs.foldl (fun a p => if p.1 == k then some p.2 else a) acc =
        (fs.foldl (fun a p => if p.1 == k then some p.2 else a) none).or acc := by
  intro fs
  induction fs with
  | nil => intro acc; simp
  | cons p fs ih =>
    intro acc
    by_cases hp : (p.1 == k) = true
    · simp only [List.foldl_cons, hp, if_true]
      rw [ih (some p.2), Option.or_assoc, Option.or_some]
    · simp only [List.foldl_cons, hp, if_false, Bool.false_eq_true]
      exact ih acc

theorem lastValue_cons (p : String × List Nat) (fs : List (String × List Nat))
    (k : String) :
    lastValue (p :: fs) k =
      (lastValue fs k).or (if p.1 == k then some p.2 else none) := by
  simp only [lastValue, List.foldl_cons]
  exact foldl_step_or k fs _

theorem dictFind_foldl (k : String) :
    ∀ (fs : List (String × List Nat)) (m : List (String × List Nat)),
      dictFind (fs.foldl (fun acc p => dictInsert acc p.1 p.2) m) k =
        (lastValue fs k).or (dictFind m k) := by
  intro fs
  induction fs with
  | nil => intro m; simp [lastValue]
  | cons p fs ih =>
    intro m
    simp only [List.foldl_cons]
    rw [ih (dictInsert m p.1 p.2), lastValue_cons, Option.or_assoc]
    congr 1
    by_cases hp : p.1 = k
    · have hb : (p.1 == k) = true := by simpa using hp
      simp only [hb, if_true, Option.or_some]
      rw [hp]
      exact dictFind_dictInsert_self m k p.2
    · have hb : (p.1 == k) = false := by simpa using hp
      simp only [hb, if_false, Bool.false_eq_true, Option.none_or]
      exact dictFind_dictInsert_ne m p.2 hp

theorem mem_map_fst_iff_any (m : List (String × List Nat)) (k : String) :
    k ∈ m.map Prod.fst ↔ m.any (fun p => p.1 == k) = true := by
  simp only [List.any_eq_true, List.mem_map, beq_iff_eq]

theorem map_fst_dictInsert (m : List (String × List Nat)) (k : String)
    (v : List Nat) :
    (dictInsert m k v).map Prod.fst =
      if m.any (fun p => p.1 == k) = true then m.map Prod.fst
      else m.map Prod.fst ++ [k] := by
  cases ha : m.any (fun p => p.1 == k) with
  | true =>
    rw [dictInsert_of_mem v ha, if_pos rfl, List.map_map]
    refine List.map_congr_left ?_
    intro p hp
    by_cases hb : (p.1 == k) = true
    · simp only [Function.comp_apply, hb, if_true]
      exact (beq_iff_eq.mp hb).symm
    · simp only [Function.comp_apply, hb, if_false, Bool.false_eq_true]
  | false =>
    rw [dictInsert_of_not_mem v ha, if_neg (by simp)]
    simp

theorem nodup_keys_dictInsert (m : List (String × List Nat)) (k : String)
    (v : List Nat) (h : (m.map Prod.fst).Nodup) :
    ((dictInsert m k v).map Prod.fst).Nodup := by
  rw [map_fst_dictInsert]
  split
  · exact h
  · next ha =>
    refine List.Nodup.append h (List.nodup_singleton k) ?_
    rw [List.disjoint_singleton]
    intro hkmem
    exact ha ((mem_map_fst_iff_any m k).mp hkmem)

theorem nodup_keys_foldl (fs : List (String × List Nat)) :
    ∀ m : List (String × List Nat), (m.map Prod.fst).Nodup →
      ((fs.foldl (fun acc p => dictInsert acc p.1 p.2) m).map Prod.fst).Nodup := by
  induction fs with
  | nil => intro m h; exact h
  | cons p fs ih =>
    intro m h
    simp only [List.foldl_cons]
    exact ih (dictInsert m p.1 p.2) (nodup_keys_dictInsert m p.1 p.2 h)

theorem loop_eq_fields_aux :
    ∀ (fuel : Nat) (data : List Nat), data.length ≤ fuel →
      ∀ m, parse_tlv_loop data m =
        (tlvFields data).map
          (fun fs => fs.foldl (fun acc p => dictInsert acc p.1 p.2) m) := by
  intro fuel
  induction fuel with
  | zero =>
    intro data hl m
    have : data = [] := by cases data <;> simp_all
    subst this
    rw [parse_tlv_loop_nil, tlvFields_nil]
    rfl
  | succ fuel ih =>
    intro data hl m
    cases data with
    | nil => rw [parse_tlv_loop_nil, tlvFields_nil]; rfl
    | cons a l =>
      cases hs : tlvStep (a :: l) with
      | none => rw [parse_tlv_loop_cons_none m hs, tlvFields_cons_none hs]; rfl
      | some trip =>
        obtain ⟨h, v, rem⟩ := trip
        have hrem : rem.length ≤ fuel := by
          have h1 := tlvStep_some_length hs
          simp only [List.length_cons] at h1 hl
          omega
        rw [parse_tlv_loop_cons_some m hs, ih rem hrem (dictInsert m h v)]
        cases hf : tlvFields rem with
        | none => rw [tlvFields_cons_fail hs hf]; rfl
        | some fs => rw [tlvFields_cons_some hs hf]; rfl

theorem loop_eq_fields (data : List Nat) (m : List (String × List Nat)) :
    parse_tlv_loop data m =
      (tlvFields data).map
        (fun fs => fs.foldl (fun acc p => dictInsert acc p.1 p.2) m) :=
  loop_eq_fields_aux data.length data (Nat.le_refl _) m

/-! ## Claim theorem: last-write-wins semantics of the decoded map -/

/-- Claim C8: a decoded map has no duplicate keys, and the value stored
under any key is exactly the value of the last field with that key in the
input stream (so a repeated tag keeps only its last occurrence). -/
theorem last_write_wins :
    ∀ (s : String) (m fs : List (String × List Nat)),
      parse_tlv s = some m → tlv_field_seq s = some fs →
      (m.map Prod.fst).Nodup ∧ ∀ k, dictFind m k = lastValue fs k := by
  intro s m fs hp hf
  unfold parse_tlv at hp
  unfold tlv_field_seq at hf
  cases hb : bytesFromHex (s.data.filter (fun c => c ≠ ' ')) with
  | none =>
    simp only [hb] at hp
    exact absurd hp (by simp)
  | some data =>
    simp only [hb] at hp hf
    rw [loop_eq_fields data [], hf] at hp
    simp only [Option.map_some', Option.some.injEq] at hp
    subst hp
    constructor
    · exact nodup_keys_foldl fs [] (by simp)
    · intro k
      rw [dictFind_foldl k fs [], dictFind_nil, Option.or_none]

theorem last_write_wins_witness :
    dictFind [("82", [0xBB])] "82" =
      lastValue [("82", [0xAA]), ("82", [0xBB])] "82" := by
  refine (last_write_wins "8201AA8201BB" [("82", [0xBB])]
    [("82", [0xAA]), ("82", [0xBB])] ?_ ?_).2 "82"
  · rw [@parse_tlv_eq "8201AA8201BB" [0x82, 0x01, 0xAA, 0x82, 0x01, 0xBB] (by decide)]
    rw [parse_tlv_loop_cons_some []
      (show tlvStep [0x82, 0x01, 0xAA, 0x82, 0x01, 0xBB] =
        some ("82", [0xAA], [0x82, 0x01, 0xBB]) by decide)]
    rw [parse_tlv_loop_cons_some _
      (show tlvStep [0x82, 0x01, 0xBB] = some ("82", [0xBB], []) by decide)]
    rw [parse_tlv_loop_nil]
    decide
  · have h2 : tlvFields [0x82, 0x01, 0xBB] = some [("82", [0xBB])] := by
      rw [tlvFields_cons_some
        (show tlvStep [0x82, 0x01, 0xBB] = some ("82", [0xBB], []) by decide)
        tlvFields_nil]
    rw [@tlv_field_seq_eq "8201AA8201BB" [0x82, 0x01, 0xAA, 0x82, 0x01, 0xBB] (by decide)]
    rw [tlvFields_cons_some
      (show tlvStep [0x82, 0x01, 0xAA, 0x82, 0x01, 0xBB] =
        some ("82", [0xAA], [0x82, 0x01, 0xBB]) by decide) h2]

/-! ## Properties of the uppercase hex rendering -/

theorem isUpperHexDigit_hexDigitChar :
    ∀ d : Nat, d < 16 → isUpperHexDigit (hexDigitChar d) = true := by decide

theorem hexDigitVal_hexDigitChar :
    ∀ d : Nat, d < 16 → hexDigitVal (hexDigitChar d) = some d := by decide

theorem toHexCore_all_upper :
    ∀ (fuel n : Nat) (acc : List Char), n < fuel →
      acc.all isUpperHexDigit = true →
      (toHexCore fuel n acc).all isUpperHexDigit = true := by
  intro fuel
  induction fuel with
  | zero => intro n acc hn; omega
  | succ fuel ih =>
    intro n acc hn hacc
    by_cases h16 : n < 16
    · simp only [toHexCore, h16, if_true, List.all_cons, Bool.and_eq_true]
      exact ⟨isUpperHexDigit_hexDigitChar n h16, hacc⟩
    · simp only [toHexCore, h16, if_false, Bool.false_eq_true]
      refine ih (n / 16) (hexDigitChar (n % 16) :: acc) ?_ ?_
      · have : n / 16 < n := Nat.div_lt_self (by omega) (by omega)
        omega
      · simp only [List.all_cons, Bool.and_eq_true]
        exact ⟨isUpperHexDigit_hexDigitChar (n % 16) (Nat.mod_lt n (by omega)), hacc⟩

theorem toHexCore_length :
    ∀ (fuel n : Nat) (acc : List Char) (w : Nat), n < fuel → n < 16 ^ w →
      1 ≤ w → (toHexCore fuel n acc).length ≤ w + acc.length := by
  intro fuel
  induction fuel with
  | zero => intro n acc w hn; omega
  | succ fuel ih =>
    intro n acc w hn hw h1
    by_cases h16 : n < 16
    · simp only [toHexCore, h16, if_true, List.length_cons]
      omega
    · simp only [toHexCore, h16, if_false, Bool.false_eq_true]
      have hw2 : 2 ≤ w := by
        by_contra hcon
        have : w = 1 := by omega
        subst this
        simp at hw
        omega
      have hdiv : n / 16 < 16 ^ (w - 1) := by
        rw [Nat.div_lt_iff_lt_mul (by omega)]
        have : 16 ^ (w - 1) * 16 = 16 ^ w := by
          rw [← Nat.pow_succ]
          congr 1
          omega
        omega
      have hfuel : n / 16 < fuel := by
        have : n / 16 < n := Nat.div_lt_self (by omega) (by omega)
        omega
      have := ih (n / 16) (hexDigitChar (n % 16) :: acc) (w - 1) hfuel hdiv (by omega)
      simp only [List.length_cons] at this
      omega

theorem toHexCore_append :
    ∀ (fuel n : Nat) (acc : List Char),
      toHexCore fuel n acc = toHexCore fuel n [] ++ acc := by
  intro fuel
  induction fuel with
  | zero => intro n acc; rfl
  | succ fuel ih =>
    intro n acc
    by_cases h16 : n < 16
    · simp [toHexCore, h16]
    · simp only [toHexCore, h16, if_false, Bool.false_eq_true]
      rw [ih (n / 16) (hexDigitChar (n % 16) :: acc), ih (n / 16) [hexDigitChar (n % 16)]]
      simp

theorem toHexCore_val :
    ∀ (fuel n : Nat), n < fuel → ∀ a : Nat,
      (toHexCore fuel n []).foldl (fun a c => a * 16 + ((hexDigitVal c).getD 0)) a =
        a * 16 ^ (toHexCore fuel n []).length + n := by
  intro fuel
  induction fuel with
  | zero => intro n hn; omega
  | succ fuel ih =>
    intro n hn a
    by_cases h16 : n < 16
    · simp only [toHexCore, h16, if_true, List.foldl_cons, List.foldl_nil,
        List.length_cons, List.length_nil]
      rw [hexDigitVal_hexDigitChar n h16]
      simp
    · simp only [toHexCore, h16, if_false, Bool.false_eq_true]
      rw [toHexCore_append fuel (n / 16) [hexDigitChar (n % 16)]]
      have hfuel : n / 16 < fuel := by
        have : n / 16 < n := Nat.div_lt_self (by omega) (by omega)
        omega
      rw [List.foldl_append, ih (n / 16) hfuel a]
      simp only [List.foldl_cons, List.foldl_nil, List.length_append,
        List.length_cons, List.length_nil]
      rw [hexDigitVal_hexDigitChar (n % 16) (Nat.mod_lt n (by omega))]
      simp only [Option.getD_some]
      have hpow : 16 ^ ((toHexCore fuel (n / 16) []).length + 1) =
          16 ^ (toHexCore fuel (n / 16) []).length * 16 := by
        rw [Nat.pow_succ]
      rw [hpow]
      have hdm := Nat.div_add_mod n 16
      ring_nf
      omega

theorem hexVal_foldl_zeros :
    ∀ k : Nat, (List.replicate k '0').foldl
      (fun a c => a * 16 + ((hexDigitVal c).getD 0)) 0 = 0 := by
  intro k
  induction k with
  | zero => rfl
  | succ k ih => simpa [List.replicate_succ, hexDigitVal] using ih

theorem formatHex_data (n w : Nat) :
    (formatHex n w).data =
      List.replicate (w - (toHexDigits n).length) '0' ++ toHexDigits n := rfl

theorem formatHex_length (n w : Nat) (hw : n < 16 ^ w) (h1 : 1 ≤ w) :
    (formatHex n w).data.length = w := by
  rw [formatHex_data]
  have hle : (toHexDigits n).length ≤ w := by
    have := toHexCore_length (n + 1) n [] w (Nat.lt_succ_self n) hw h1
    simpa [toHexDigits] using this
  simp only [List.length_append, List.length_replicate]
  omega

theorem formatHex_all_upper (n w : Nat) :
    ((formatHex n w).data.all isUpperHexDigit) = true := by
  rw [formatHex_data]
  simp only [List.all_append, Bool.and_eq_true]
  constructor
  · simp only [List.all_eq_true]
    intro c hc
    rw [List.eq_of_mem_replicate hc]
    decide
  · exact toHexCore_all_upper (n + 1) n [] (Nat.lt_succ_self n) rfl

theorem hexVal_formatHex (n w : Nat) : hexVal (formatHex n w).data = n := by
  rw [formatHex_data]
  unfold hexVal
  rw [List.foldl_append, hexVal_foldl_zeros]
  have := toHexCore_val (n + 1) n (Nat.lt_succ_self n) 0
  simpa [toHexDigits] using this

theorem goodKey_tagToHex (t : Nat)
    (h : t ≤ 0xFF ∨ (0x1F00 ≤ t ∧ t < 0x10000)) : goodKey (tagToHex t) = true := by
  rcases h with h | ⟨h1, h2⟩
  · have hlt : t < 16 ^ 2 := by norm_num; omega
    unfold tagToHex
    rw [if_pos h]
    unfold goodKey
    rw [formatHex_all_upper, formatHex_length t 2 hlt (by omega), hexVal_formatHex]
    simp [h]
  · have hlt : t < 16 ^ 4 := by norm_num; omega
    unfold tagToHex
    rw [if_neg (by omega)]
    unfold goodKey
    rw [formatHex_all_upper, formatHex_length t 4 hlt (by omega), hexVal_formatHex]
    simp [h1]

theorem shiftLeft_or_eq_add (a b : Nat) (hb : b < 256) :
    (a <<< 8) ||| b = a * 256 + b := by
  have h1 : a <<< 8 = a * 256 := by rw [Nat.shiftLeft_eq]
  have hb2 : b < 2 ^ 8 := by
    have e : (2 : Nat) ^ 8 = 256 := by norm_num
    omega
  have h2 := Nat.mul_add_lt_is_or hb2 a
  have e2 : (2 : Nat) ^ 8 = 256 := by norm_num
  rw [e2, Nat.mul_comm 256 a] at h2
  rw [h1]
  exact h2.symm

/-! ## Claim theorem: tag parsing and rendering -/

/-- Claim C7: a leading byte with all of its low 5 bits set makes the
decoder read a two-byte tag `(b1 << 8) | b2` and consume both bytes, and
such a tag renders as 4 uppercase hex digits; any other leading byte is a
one-byte tag, consumed alone and rendered as 2 uppercase hex digits; the
stream `9F0206000000001000` decodes to tag `"9F02"` with its 6-byte value. -/
theorem multibyte_tag_handling :
    (∀ (t1 t2 : Nat) (rest : List Nat), t1 &&& 0x1F = 0x1F →
      readTag (t1 :: t2 :: rest) = some ((t1 <<< 8) ||| t2, rest)) ∧
    (∀ (t1 : Nat) (rest : List Nat), t1 &&& 0x1F ≠ 0x1F →
      readTag (t1 :: rest) = some (t1, rest)) ∧
    (∀ t1 t2 : Nat, t1 < 256 → t2 < 256 → t1 &&& 0x1F = 0x1F →
      (tagToHex ((t1 <<< 8) ||| t2)).data.length = 4 ∧
      ((tagToHex ((t1 <<< 8) ||| t2)).data.all isUpperHexDigit) = true) ∧
    (∀ t : Nat, t ≤ 0xFF → (tagToHex t).data.length = 2 ∧
      ((tagToHex t).data.all isUpperHexDigit) = true) ∧
    parse_tlv "9F0206000000001000" =
      some [("9F02", [0x00, 0x00, 0x00, 0x00, 0x10, 0x00])] := by
  refine ⟨?_, ?_, ?_, ?_, ?_⟩
  · intro t1 t2 rest h
    simp [readTag, h]
  · intro t1 rest h
    simp [readTag, h]
  · intro t1 t2 ht1 ht2 h
    have he : (t1 <<< 8) ||| t2 = t1 * 256 + t2 := shiftLeft_or_eq_add t1 t2 ht2
    have h31 : 31 ≤ t1 := by
      have h2 := @Nat.and_le_left t1 31
      rw [h] at h2
      exact h2
    have e4 : (16 : Nat) ^ 4 = 65536 := by norm_num
    rw [he]
    constructor
    · unfold tagToHex
      rw [if_neg (by omega)]
      exact formatHex_length _ 4 (by omega) (by omega)
    · unfold tagToHex
      rw [if_neg (by omega)]
      exact formatHex_all_upper _ 4
  · intro t h
    have e2 : (16 : Nat) ^ 2 = 256 := by norm_num
    unfold tagToHex
    rw [if_pos h]
    exact ⟨formatHex_length t 2 (by omega) (by omega), formatHex_all_upper t 2⟩
  · rw [@parse_tlv_eq "9F0206000000001000"
      [0x9F, 0x02, 0x06, 0x00, 0x00, 0x00, 0x00, 0x10, 0x00] (by decide)]
    rw [parse_tlv_loop_cons_some []
      (show tlvStep [0x9F, 0x02, 0x06, 0x00, 0x00, 0x00, 0x00, 0x10, 0x00] =
        some ("9F02", [0x00, 0x00, 0x00, 0x00, 0x10, 0x00], []) by decide)]
    rw [parse_tlv_loop_nil]
    decide

theorem multibyte_tag_handling_witness :
    readTag [0x9F, 0x02] = some (0x9F02, []) := by
  have h := multibyte_tag_handling.1 0x9F 0x02 [] (by decide)
  exact h.trans (by decide)

/-! ## Byte bounds and the shape of decoded keys -/

theorem hexDigitVal_lt {c : Char} {d : Nat} (h : hexDigitVal c = some d) :
    d < 16 := by
  simp only [hexDigitVal] at h
  split_ifs at h <;> simp only [Option.some.injEq] at h <;> omega

theorem bytesFromHex_lt_256_aux :
    ∀ (fuel : Nat) (l : List Char) (bs : List Nat), l.length ≤ fuel →
      bytesFromHex l = some bs → ∀ b ∈ bs, b < 256 := by
  intro fuel
  induction fuel with
  | zero =>
    intro l bs hl h b hb
    have : l = [] := by cases l <;> simp_all
    subst this
    rw [bytesFromHex_nil] at h
    simp only [Option.some.injEq] at h
    subst h
    simp at hb
  | succ fuel ih =>
    intro l bs hl h b hb
    cases l with
    | nil =>
      rw [bytesFromHex_nil] at h
      simp only [Option.some.injEq] at h
      subst h
      simp at hb
    | cons c1 rest =>
      cases hws : isPySpace c1 with
      | true =>
        rw [bytesFromHex_cons_space rest hws] at h
        exact ih rest bs (by simp at hl; omega) h b hb
      | false =>
        cases rest with
        | nil =>
          rw [bytesFromHex_single hws] at h
          exact absurd h (by simp)
        | cons c2 rest2 =>
          cases h1 : hexDigitVal c1 with
          | none =>
            rw [bytesFromHex_pair_bad1 c2 rest2 hws h1] at h
            exact absurd h (by simp)
          | some d1 =>
            cases h2 : hexDigitVal c2 with
            | none =>
              rw [bytesFromHex_pair_bad2 c1 rest2 hws h2] at h
              exact absurd h (by simp)
            | some d2 =>
              rw [bytesFromHex_pair_ok rest2 hws h1 h2] at h
              cases h3 : bytesFromHex rest2 with
              | none => rw [h3] at h; exact absurd h (by simp)
              | some t =>
                rw [h3] at h
                simp only [Option.map_some', Option.some.injEq] at h
                subst h
                rcases hb with _ | ⟨_, hb⟩
                · have g1 := hexDigitVal_lt h1
                  have g2 := hexDigitVal_lt h2
                  omega
                · exact ih rest2 t (by simp at hl; omega) h3 b hb

theorem bytesFromHex_lt_256 {l : List Char} {bs : List Nat}
    (h : bytesFromHex l = some bs) : ∀ b ∈ bs, b < 256 :=
  bytesFromHex_lt_256_aux l.length l bs (Nat.le_refl _) h

theorem readTag_valid {d : List Nat} {tag : Nat} {r : List Nat}
    (hd : ∀ b ∈ d, b < 256) (h : readTag d = some (tag, r)) :
    (tag ≤ 0xFF ∨ (0x1F00 ≤ tag ∧ tag < 0x10000)) ∧ ∀ b ∈ r, b < 256 := by
  cases d with
  | nil => simp [readTag] at h
  | cons t rest =>
    simp only [readTag] at h
    split at h
    · next hm =>
      cases rest with
      | nil => simp at h
      | cons t2 rest2 =>
        simp only [Option.some.injEq, Prod.mk.injEq] at h
        obtain ⟨rfl, rfl⟩ := h
        have ht : t < 256 := hd t (by simp)
        have ht2 : t2 < 256 := hd t2 (by simp)
        have h31 : 31 ≤ t := by
          have h2 := @Nat.and_le_left t 31
          rw [hm] at h2
          exact h2
        rw [shiftLeft_or_eq_add t t2 ht2]
        refine ⟨Or.inr (by omega), ?_⟩
        intro b hb
        exact hd b (by simp [hb])
    · simp only [Option.some.injEq, Prod.mk.injEq] at h
      obtain ⟨rfl, rfl⟩ := h
      have ht : t < 256 := hd t (by simp)
      refine ⟨Or.inl (by omega), ?_⟩
      intro b hb
      exact hd b (by simp [hb])

theorem readLen_bytes {d : List Nat} {len : Nat} {r : List Nat}
    (hd : ∀ b ∈ d, b < 256) (h : readLen d = some (len, r)) :
    ∀ b ∈ r, b < 256 := by
  cases d with
  | nil => simp [readLen] at h
  | cons l0 rest =>
    simp only [readLen] at h
    split at h
    · simp only [Option.some.injEq, Prod.mk.injEq] at h
      obtain ⟨-, rfl⟩ := h
      intro b hb
      exact hd b (by simp [List.drop_subset _ _ hb])
    · simp only [Option.some.injEq, Prod.mk.injEq] at h
      obtain ⟨-, rfl⟩ := h
      intro b hb
      exact hd b (by simp [hb])

theorem tlvStep_goodKey {d : List Nat} {h : String} {v rem : List Nat}
    (hd : ∀ b ∈ d, b < 256) (hs : tlvStep d = some (h, v, rem)) :
    goodKey h = true ∧ ∀ b ∈ rem, b < 256 := by
  unfold tlvStep at hs
  cases h1 : readTag d with
  | none => simp only [h1] at hs; exact absurd hs (by simp)
  | some p =>
    obtain ⟨tag, r1⟩ := p
    simp only [h1] at hs
    cases h2 : readLen r1 with
    | none => simp only [h2] at hs; exact absurd hs (by simp)
    | some q =>
      obtain ⟨len, r2⟩ := q
      simp only [h2, Option.some.injEq, Prod.mk.injEq] at hs
      obtain ⟨rfl, -, rfl⟩ := hs
      obtain ⟨hvalid, hr1⟩ := readTag_valid hd h1
      have hr2 := readLen_bytes hr1 h2
      refine ⟨goodKey_tagToHex tag hvalid, ?_⟩
      intro b hb
      exact hr2 b (List.drop_subset _ _ hb)

theorem tlvFields_keys :
    ∀ (fuel : Nat) (data : List Nat), data.length ≤ fuel →
      (∀ b ∈ data, b < 256) → ∀ fs, tlvFields data = some fs →
      ∀ p ∈ fs, goodKey p.1 = true := by
  intro fuel
  induction fuel with
  | zero =>
    intro data hl hd fs hf p hp
    have : data = [] := by cases data <;> simp_all
    subst this
    rw [tlvFields_nil] at hf
    simp only [Option.some.injEq] at hf
    subst hf
    simp at hp
  | succ fuel ih =>
    intro data hl hd fs hf p hp
    cases data with
    | nil =>
      rw [tlvFields_nil] at hf
      simp only [Option.some.injEq] at hf
      subst hf
      simp at hp
    | cons a l =>
      cases hs : tlvStep (a :: l) with
      | none => rw [tlvFields_cons_none hs] at hf; exact absurd hf (by simp)
      | some trip =>
        obtain ⟨h, v, rem⟩ := trip
        obtain ⟨hkey, hrem⟩ := tlvStep_goodKey hd hs
        cases hrf : tlvFields rem with
        | none => rw [tlvFields_cons_fail hs hrf] at hf; exact absurd hf (by simp)
        | some fs2 =>
          rw [tlvFields_cons_some hs hrf] at hf
          simp only [Option.some.injEq] at hf
          subst hf
          rcases hp with _ | ⟨_, hp⟩
          · exact hkey
          · have hlen : rem.length ≤ fuel := by
              have g := tlvStep_some_length hs
              simp only [List.length_cons] at g hl
              omega
            exact ih rem hlen hrem fs2 hrf p hp

theorem key_mem_foldl :
    ∀ (fs m : List (String × List Nat)) (q : String × List Nat),
      q ∈ fs.foldl (fun acc p => dictInsert acc p.1 p.2) m →
      q.1 ∈ m.map Prod.fst ∨ q.1 ∈ fs.map Prod.fst := by
  intro fs
  induction fs with
  | nil =>
    intro m q hq
    exact Or.inl (List.mem_map.mpr ⟨q, hq, rfl⟩)
  | cons p fs ih =>
    intro m q hq
    simp only [List.foldl_cons] at hq
    rcases ih (dictInsert m p.1 p.2) q hq with hmem | hmem
    · rw [map_fst_dictInsert] at hmem
      split at hmem
      · exact Or.inl hmem
      · rcases List.mem_append.mp hmem with hmem | hmem
        · exact Or.inl hmem
        · simp only [List.mem_singleton] at hmem
          exact Or.inr (by simp [hmem])
    · exact Or.inr (by simp [hmem])

/-! ## Claim theorem: shape of decoded map keys -/

/-- Claim C10: every key of a decoded TLV map is a zero-padded uppercase
hex string of exactly 2 digits (a value at most `0xFF`) or exactly 4 digits
(a value at least `0x1F00`). -/
theorem decoded_keys_shape :
    ∀ (s : String) (m : List (String × List Nat)), parse_tlv s = some m →
      ∀ p ∈ m, goodKey p.1 = true := by
  intro s m hp p hpm
  unfold parse_tlv at hp
  cases hb : bytesFromHex (s.data.filter (fun c => c ≠ ' ')) with
  | none => simp only [hb] at hp; exact absurd hp (by simp)
  | some data =>
    simp only [hb] at hp
    rw [loop_eq_fields data []] at hp
    cases hf : tlvFields data with
    | none => rw [hf] at hp; exact absurd hp (by simp)
    | some fs =>
      rw [hf] at hp
      simp only [Option.map_some', Option.some.injEq] at hp
      subst hp
      rcases key_mem_foldl fs [] p hpm with h | h
      · simp at h
      · obtain ⟨q, hq, hq1⟩ := List.mem_map.mp h
        rw [← hq1]
        exact tlvFields_keys data.length data (Nat.le_refl _)
          (bytesFromHex_lt_256 hb) fs hf q hq

theorem decoded_keys_shape_witness : goodKey "82" = true := by
  have hp : parse_tlv "82023000" = some [("82", [0x30, 0x00])] := by
    rw [@parse_tlv_eq "82023000" [0x82, 0x02, 0x30, 0x00] (by decide)]
    rw [parse_tlv_loop_cons_some []
      (show tlvStep [0x82, 0x02, 0x30, 0x00] = some ("82", [0x30, 0x00], []) by decide)]
    rw [parse_tlv_loop_nil]
    decide
  exact decoded_keys_shape "82023000" [("82", [0x30, 0x00])] hp
    ("82", [0x30, 0x00]) (by simp)

/-! ## Correctness of the re-encoder against the decoder (round-trip) -/

theorem natToBytesCore_append :
    ∀ (fuel n : Nat) (acc : List Nat),
      natToBytesCore fuel n acc = natToBytesCore fuel n [] ++ acc := by
  intro fuel
  induction fuel with
  | zero => intro n acc; rfl
  | succ fuel ih =>
    intro n acc
    by_cases h0 : n = 0
    · simp [natToBytesCore, h0]
    · simp only [natToBytesCore, h0, if_false, Bool.false_eq_true]
      rw [ih (n / 256) (n % 256 :: acc), ih (n / 256) [n % 256]]
      simp

theorem intFromBytesBE_natToBytesCore :
    ∀ (fuel n : Nat), n < fuel →
      intFromBytesBE (natToBytesCore fuel n []) = n := by
  intro fuel
  induction fuel with
  | zero => intro n hn; omega
  | succ fuel ih =>
    intro n hn
    by_cases h0 : n = 0
    · simp [natToBytesCore, h0, intFromBytesBE]
    · simp only [natToBytesCore, h0, if_false, Bool.false_eq_true]
      rw [natToBytesCore_append fuel (n / 256) [n % 256]]
      have hfuel : n / 256 < fuel := by
        have : n / 256 < n := Nat.div_lt_self (by omega) (by omega)
        omega
      unfold intFromBytesBE
      rw [List.foldl_append]
      have hih := ih (n / 256) hfuel
      unfold intFromBytesBE at hih
      rw [hih]
      simp only [List.foldl_cons, List.foldl_nil]
      omega

theorem intFromBytesBE_natToBytesBE (n : Nat) :
    intFromBytesBE (natToBytesBE n) = n :=
  intFromBytesBE_natToBytesCore (n + 1) n (Nat.lt_succ_self n)

theorem and_128_eq_zero {l : Nat} (h : l < 128) : l &&& 128 = 0 := by
  apply Nat.eq_of_testBit_eq
  intro i
  rw [Nat.testBit_and, Nat.zero_testBit]
  have e : (128 : Nat) = 2 ^ 7 := by norm_num
  rw [e, Nat.testBit_two_pow]
  by_cases h7 : 7 = i
  · subst h7
    have : l.testBit 7 = false := Nat.testBit_lt_two_pow (by omega)
    simp [this]
  · simp [h7]

theorem add_128_and_128 {k : Nat} (h : k < 128) : (128 + k) &&& 128 ≠ 0 := by
  intro hcon
  have e : (2 : Nat) ^ 7 = 128 := by norm_num
  have h7 : (128 + k).testBit 7 = true := by
    rw [Nat.testBit_to_div_mod, e]
    have hdiv : (128 + k) / 128 = 1 := by omega
    simp [hdiv]
  have h128 : (128 : Nat).testBit 7 = true := by
    rw [← e]
    exact Nat.testBit_two_pow_self
  have := Nat.testBit_and (128 + k) 128 7
  rw [hcon, Nat.zero_testBit, h7, h128] at this
  simp at this

theorem add_128_and_127 {k : Nat} (h : k < 128) : (128 + k) &&& 127 = k := by
  have e : (127 : Nat) = 2 ^ 7 - 1 := by norm_num
  rw [e, Nat.and_pow_two_sub_one_eq_mod]
  have e2 : (2 : Nat) ^ 7 = 128 := by norm_num
  rw [e2]
  omega

theorem recombine_tag (t : Nat) : ((t >>> 8) <<< 8) ||| (t &&& 0xFF) = t := by
  have h1 : t >>> 8 = t / 256 := by
    rw [Nat.shiftRight_eq_div_pow]
  have h2 : t &&& 0xFF = t % 256 := by
    have e : (0xFF : Nat) = 2 ^ 8 - 1 := by norm_num
    rw [e, Nat.and_pow_two_sub_one_eq_mod]
  rw [h1, h2, shiftLeft_or_eq_add (t / 256) (t % 256) (by omega)]
  omega

theorem readTag_encodeTag {t : Nat} (hv : validTag t) (rest : List Nat) :
    readTag (encodeTag t ++ rest) = some (t, rest) := by
  rcases hv with ⟨h255, hm⟩ | ⟨hgt, hlt, hm⟩
  · simp [encodeTag, h255, readTag, hm]
  · have hne : ¬(t ≤ 0xFF) := by omega
    simp only [encodeTag, hne, if_false, Bool.false_eq_true, List.cons_append,
      List.nil_append, readTag, hm, if_true]
    rw [recombine_tag]

theorem readLen_encodeLen {n : Nat} (hfit : (natToBytesBE n).length ≤ 0x7F)
    (rest : List Nat) : readLen (encodeLen n ++ rest) = some (n, rest) := by
  by_cases hn : n ≤ 0x7F
  · have hz : n &&& 0x80 = 0 := and_128_eq_zero (by omega)
    simp only [encodeLen, hn, if_true, List.cons_append, List.nil_append, readLen]
    rw [if_neg (by simpa using hz)]
  · simp only [encodeLen, hn, if_false, Bool.false_eq_true, List.cons_append, readLen]
    have hk : (natToBytesBE n).length < 128 := by omega
    rw [if_pos (by simpa using add_128_and_128 hk)]
    rw [add_128_and_127 hk]
    rw [List.take_left' rfl, List.drop_left' rfl]
    rw [intFromBytesBE_natToBytesBE]

theorem tlvStep_encodeField {t : Nat} {v : List Nat} (hv : validTag t)
    (hfit : (natToBytesBE v.length).length ≤ 0x7F) (rest : List Nat) :
    tlvStep (encodeField t v ++ rest) = some (tagToHex t, v, rest) := by
  have hfield : encodeField t v ++ rest =
      encodeTag t ++ (encodeLen v.length ++ (v ++ rest)) := by
    simp [encodeField]
  simp only [tlvStep, hfield, readTag_encodeTag hv, readLen_encodeLen hfit]
  rw [List.take_left' rfl, List.drop_left' rfl]

theorem encodeField_ne_nil (t : Nat) (v : List Nat) : encodeField t v ≠ [] := by
  simp only [encodeField, encodeTag]
  split <;> simp

theorem parse_tlv_loop_step {data : List Nat} {h : String} {v rem : List Nat}
    (m : List (String × List Nat)) (hne : data ≠ [])
    (hs : tlvStep data = some (h, v, rem)) :
    parse_tlv_loop data m = parse_tlv_loop rem (dictInsert m h v) := by
  cases data with
  | nil => exact absurd rfl hne
  | cons a l => exact parse_tlv_loop_cons_some m hs

theorem roundtrip_aux :
    ∀ (fs : List (Nat × List Nat)) (m : List (String × List Nat)),
      (∀ p ∈ fs, validTag p.1 ∧ (natToBytesBE p.2.length).length ≤ 0x7F) →
      (∀ p ∈ fs, tagToHex p.1 ∉ m.map Prod.fst) →
      (fs.map (fun p => tagToHex p.1)).Nodup →
      parse_tlv_loop (encodeTlvMap fs) m =
        some (m ++ fs.map (fun p => (tagToHex p.1, p.2))) := by
  intro fs
  induction fs with
  | nil =>
    intro m hgood hfresh hnodup
    simp only [encodeTlvMap]
    rw [parse_tlv_loop_nil]
    simp
  | cons p fs ih =>
    intro m hgood hfresh hnodup
    obtain ⟨t, v⟩ := p
    obtain ⟨hvalid, hfit⟩ := hgood (t, v) (by simp)
    have hstep := tlvStep_encodeField hvalid hfit (encodeTlvMap fs)
    have henc : encodeTlvMap ((t, v) :: fs) = encodeField t v ++ encodeTlvMap fs := rfl
    rw [henc]
    rw [parse_tlv_loop_step m (by simp [encodeField_ne_nil t v]) hstep]
    have hkey : tagToHex t ∉ m.map Prod.fst := hfresh (t, v) (by simp)
    have hins : dictInsert m (tagToHex t) v = m ++ [(tagToHex t, v)] := by
      refine dictInsert_of_not_mem v ?_
      cases hany : m.any (fun q => q.1 == tagToHex t) with
      | false => rfl
      | true => exact absurd ((mem_map_fst_iff_any m (tagToHex t)).mpr hany) hkey
    rw [hins]
    simp only [List.map_cons, List.nodup_cons] at hnodup
    obtain ⟨hhead, htail⟩ := hnodup
    rw [ih (m ++ [(tagToHex t, v)]) ?_ ?_ htail]
    · simp
    · intro q hq
      exact (hgood q (by simp [hq])).imp id id
    · intro q hq
      simp only [List.map_append, List.mem_append]
      rintro (hmem | hmem)
      · exact hfresh q (by simp [hq]) hmem
      · simp only [List.map_cons, List.map_nil, List.mem_singleton] at hmem
        exact hhead (hmem ▸ List.mem_map.mpr ⟨q, hq, rfl⟩)

/-! ## Claim theorem: decode is a left inverse of the re-encoder -/

/-- Claim C3 (round-trip law): for any association of decodable tag numbers
(one byte without the multi-byte marker, or the supported two-byte form) to
values whose length bytes fit the long-form width, with pairwise distinct
rendered tags, re-encoding with the inverse of the decode algorithm and
decoding again yields exactly the original map. -/
theorem tlv_roundtrip :
    ∀ fs : List (Nat × List Nat),
      (∀ p ∈ fs, validTag p.1 ∧ (natToBytesBE p.2.length).length ≤ 0x7F) →
      (fs.map (fun p => tagToHex p.1)).Nodup →
      parse_tlv_loop (encodeTlvMap fs) [] =
        some (fs.map (fun p => (tagToHex p.1, p.2))) := by
  intro fs h1 h2
  have := roundtrip_aux fs [] h1 (by simp) h2
  simpa using this

theorem tlv_roundtrip_witness :
    parse_tlv_loop (encodeTlvMap [(0x82, [0x30, 0x00]), (0x9F02, [0x00, 0x01])]) [] =
      some [("82", [0x30, 0x00]), ("9F02", [0x00, 0x01])] := by
  have h := tlv_roundtrip [(0x82, [0x30, 0x00]), (0x9F02, [0x00, 0x01])]
    (by decide) (by decide)
  exact h.trans (by decide)
